import Mathlib

/-!
Verification of the C/C++ lexical scanner described in the repository's design
document. The repository's visible sources are fixture data only (the golden
test inputs under language/internal/cc/lexer/testdata and
language/cc/testdata/platforms), so the scanner itself is modelled from the
specification text: positions, spans, tokens, the literal sub-scanners, the
directive scanner and the tokenizer driver are translated clause by clause
from sections 3, 4 and 7 of the document. The input buffer is a list of
unicode scalar values (the document counts columns in characters, one column
per scalar value).
-/

namespace CcLexer

/-- Modelled from the spec: Position record of section 3 — character offset,
1-based line, 1-based column counted in characters. -/
structure Position where
  offset : Nat
  line : Nat
  column : Nat
deriving DecidableEq, Repr

/-- Modelled from the spec: Span of section 3, the end position (`stop`
here, since `end` is reserved) is exclusive. -/
structure Span where
  start : Position
  stop : Position
deriving DecidableEq, Repr

/-- Modelled from the spec: string-literal encoding tags of section 3. -/
inductive Encoding where
  | Narrow | Wide | Utf8 | Utf16 | Utf32
deriving DecidableEq, Repr

/-- Modelled from the spec: directive classification of section 3; unknown
keywords are preserved under `Other`. -/
inductive DirectiveKind where
  | Include | IfDef | IfNDef | Define | If | EndIf
  | Other (keyword : List Char)
deriving DecidableEq, Repr

/-- Modelled from the spec: error taxonomy of section 7. -/
inductive ErrorKind where
  | UnterminatedString | UnterminatedComment | UnterminatedRawDelimiter
  | InvalidEscape | InvalidEncodingPrefix | UnrecognizedCharacter
  | MalformedCharLiteral
deriving DecidableEq, Repr

/-- Modelled from the spec: TokenKind tagged variant of section 3. The
driver of section 4.5 consumes whitespace and newlines silently, so the
`Newline` tag is never produced by it; numbers carry no tag of their own in
the data model and fall under `Identifier` (section 4.5 groups the
identifier/number check into one dispatch arm). -/
inductive TokenKind where
  | Identifier
  | Punctuation
  | LineComment
  | BlockComment
  | StringLiteral (encoding : Encoding) (raw : Bool) (delimiter : Option (List Char))
  | CharLiteral
  | Directive (kind : DirectiveKind) (operand : List Char)
  | Newline
  | EndOfFile
  | Error (reason : ErrorKind)
deriving DecidableEq, Repr

/-- Modelled from the spec: Token of section 3 — kind, span, raw slice of
the buffer, optional decoded payload. -/
structure Token where
  kind : TokenKind
  span : Span
  text : List Char
  literalValue : Option (List Char)
deriving DecidableEq, Repr

/-- Modelled from the spec: ScanError of section 3, produced alongside the
token stream (section 6's Token-or-ScanError output); used here for the
sub-errors that do not replace a token, such as an invalid escape inside a
string that still completes. -/
structure ScanError where
  kind : ErrorKind
  span : Span
deriving DecidableEq, Repr

/-- Modelled from the spec: single-character position update of section 4.1.
A lone LF, a lone CR, and the CRLF pair each count as exactly one newline;
the lookahead argument lets a CR that is followed by LF defer the line
increment to the LF so the pair advances the line once. Every character
advances the offset by one. -/
def nextPos (p : Position) (c : Char) (la : Option Char) : Position :=
  if c = '\n' then ⟨p.offset + 1, p.line + 1, 1⟩
  else if c = '\r' then
    if la = some '\n' then ⟨p.offset + 1, p.line, p.column⟩
    else ⟨p.offset + 1, p.line + 1, 1⟩
  else ⟨p.offset + 1, p.line, p.column + 1⟩

/-- Modelled from the spec: advancing the cursor position over a consumed
slice, one character at a time (section 4.1). -/
def advanceOver (p : Position) : List Char → Position
  | [] => p
  | c :: rest => advanceOver (nextPos p c rest.head?) rest

theorem nextPos_offset (p : Position) (c : Char) (la : Option Char) :
    (nextPos p c la).offset = p.offset + 1 := by
  unfold nextPos
  split <;> first
    | rfl
    | (split <;> first | rfl | (split <;> rfl))

theorem advanceOver_offset (p : Position) (l : List Char) :
    (advanceOver p l).offset = p.offset + l.length := by
  induction l generalizing p with
  | nil => simp [advanceOver]
  | cons c rest ih =>
    simp only [advanceOver, List.length_cons]
    rw [ih, nextPos_offset]
    omega

theorem nextPos_column (p : Position) (c : Char) (la : Option Char)
    (hn : c ≠ '\n') (hr : c ≠ '\r') :
    (nextPos p c la).column = p.column + 1 := by
  simp [nextPos, hn, hr]

theorem nextPos_line (p : Position) (c : Char) (la : Option Char)
    (hn : c ≠ '\n') (hr : c ≠ '\r') :
    (nextPos p c la).line = p.line := by
  simp [nextPos, hn, hr]

/-- Character class: the whitespace the driver of section 4.5 skips
silently between tokens. -/
def isWs (c : Char) : Bool :=
  c == ' ' || c == '\t' || c == '\r' || c == '\n'

/-- Character class: line terminators (section 4.1 newline handling). -/
def isLineBreak (c : Char) : Bool :=
  c == '\n' || c == '\r'

theorem advanceOver_column (p : Position) (l : List Char)
    (h : ∀ c ∈ l, isLineBreak c = false) :
    (advanceOver p l).column = p.column + l.length := by
  induction l generalizing p with
  | nil => simp [advanceOver]
  | cons c rest ih =>
    have hc := h c (List.mem_cons_self c rest)
    simp only [isLineBreak, Bool.or_eq_false_iff, beq_eq_false_iff_ne, ne_eq] at hc
    simp only [advanceOver, List.length_cons]
    rw [ih _ (fun x hx => h x (List.mem_cons_of_mem c hx)),
      nextPos_column p c rest.head? hc.1 hc.2]
    omega

/-- Character class: identifier leading character (letter or underscore). -/
def isIdentStart (c : Char) : Bool :=
  c.isAlpha || c == '_'

/-- Character class: identifier continuation character. -/
def isIdentCont (c : Char) : Bool :=
  c.isAlpha || c.isDigit || c == '_'

/-- Character class: horizontal whitespace inside a directive line. -/
def isHorizWs (c : Char) : Bool :=
  c == ' ' || c == '\t'

/-- Character class: hexadecimal digit of an escape sequence. -/
def isHexDigit (c : Char) : Bool :=
  c.isDigit || ('a' ≤ c && c ≤ 'f') || ('A' ≤ c && c ≤ 'F')

/-- Character class: octal digit of an escape sequence. -/
def isOctDigit (c : Char) : Bool :=
  '0' ≤ c && c ≤ '7'

/-- Modelled from the spec: the characters a raw-string delimiter may use —
anything but whitespace, parentheses and backslash (section 4.2). -/
def isRawDelimChar (c : Char) : Bool :=
  !(isWs c) && c != '(' && c != ')' && c != '\\'

/-- Character class: punctuation and operator characters of the driver's
punctuation arm (section 4.5). -/
def isPunctChar (c : Char) : Bool :=
  ['(', ')', '[', ']', '\x7b', '\x7d', '<', '>', ';', ':', ',', '.', '?',
    '~', '!', '#', '%', '^', '&', '*', '-', '+', '=', '|', '/', '\\', '@',
    '"', '\''].contains c

/-- Does the list begin with the given pattern? Used for terminator search
in block comments and raw strings. -/
def startsWith : List Char → List Char → Bool
  | [], _ => true
  | _ :: _, [] => false
  | a :: as, c :: cs => a == c && startsWith as cs

theorem startsWith_append (pat : List Char) :
    ∀ l : List Char, startsWith pat l = true → pat ++ l.drop pat.length = l := by
  induction pat with
  | nil => intro l _; simp
  | cons a as ih =>
    intro l h
    cases l with
    | nil => simp [startsWith] at h
    | cons c cs =>
      simp only [startsWith, Bool.and_eq_true, beq_iff_eq] at h
      simp only [List.length_cons, List.cons_append, List.drop_succ_cons]
      rw [h.1, ih cs h.2]

/-- Scan forward for the first occurrence of `pat`; on success return the
characters before it and the characters after it. This is the terminator
search shared by the block-comment and raw-string scanners (sections 4.2
and 4.3): the construct ends at the first occurrence of its closing
sequence. -/
def splitOnPattern (pat : List Char) : List Char → Option (List Char × List Char)
  | [] => none
  | c :: cs =>
    if startsWith pat (c :: cs) then some ([], (c :: cs).drop pat.length)
    else
      match splitOnPattern pat cs with
      | some (a, b) => some (c :: a, b)
      | none => none

theorem splitOnPattern_eq (pat : List Char) :
    ∀ l a b, splitOnPattern pat l = some (a, b) → a ++ pat ++ b = l := by
  intro l
  induction l with
  | nil => intro a b h; simp [splitOnPattern] at h
  | cons c cs ih =>
    intro a b h
    simp only [splitOnPattern] at h
    split at h
    · rename_i hsw
      injection h with h'
      injection h' with ha hb
      subst ha; subst hb
      simpa using startsWith_append pat (c :: cs) hsw
    · revert h
      split
      · rename_i a' b' hrec
        intro h
        injection h with h'
        injection h' with ha hb
        subst ha; subst hb
        have := ih a' b' hrec
        simp [← this]
      · intro h; exact absurd h (by simp)

/-- Numeric value of a hexadecimal digit. -/
def hexDigitVal (c : Char) : Nat :=
  if c.isDigit then c.toNat - '0'.toNat
  else if 'a' ≤ c && c ≤ 'f' then c.toNat - 'a'.toNat + 10
  else c.toNat - 'A'.toNat + 10

/-- Numeric value of a list of hexadecimal digits. -/
def hexVal (l : List Char) : Nat :=
  l.foldl (fun a c => a * 16 + hexDigitVal c) 0

/-- Numeric value of a list of octal digits. -/
def octVal (l : List Char) : Nat :=
  l.foldl (fun a c => a * 8 + (c.toNat - '0'.toNat)) 0

/-- Does the list begin with exactly `n` hexadecimal digits? Used for the
fixed-width uXXXX and UXXXXXXXX escapes. -/
def hexRunOk (n : Nat) (r : List Char) : Bool :=
  (r.take n).length == n && (r.take n).all isHexDigit

/-- Result of scanning a quoted string body: the raw characters consumed
after the opening quote (including the closing quote when found), the
decoded payload, the sub-errors raised along the way, whether the closing
quote was reached, and the unconsumed remainder. -/
structure StrOut where
  body : List Char
  val : List Char
  errs : List ScanError
  ok : Bool
  rest : List Char
deriving Repr

/-- Modelled from the spec: the plain-string body scanner of section 4.2.
It consumes until an unescaped matching quote, recognizing the escape
sequences backslash-backslash, backslash-quote, n, t, xHH, uXXXX,
UXXXXXXXX and octal; an escape followed by an unsupported character yields
an `InvalidEscape` sub-error but scanning resumes after it, with the two
characters kept as literal text. Reaching end of input without a closing
quote leaves `ok := false` (the caller reports `UnterminatedString`). The
fuel argument only bounds the recursion; callers pass at least the input
length plus one, which is always sufficient since every step consumes at
least one character. -/
def scanStrBody : Nat → Position → List Char → StrOut
  | 0, _, l => ⟨[], [], [], false, l⟩
  | _ + 1, _, [] => ⟨[], [], [], false, []⟩
  | _ + 1, _, '"' :: r => ⟨['"'], [], [], true, r⟩
  | fuel + 1, p, '\\' :: r =>
    match r with
    | [] => ⟨['\\'], ['\\'], [], false, []⟩
    | e :: r2 =>
      if e == '\\' || e == '"' then
        let o := scanStrBody fuel (advanceOver p ['\\', e]) r2
        ⟨'\\' :: e :: o.body, e :: o.val, o.errs, o.ok, o.rest⟩
      else if e == 'n' then
        let o := scanStrBody fuel (advanceOver p ['\\', e]) r2
        ⟨'\\' :: e :: o.body, '\n' :: o.val, o.errs, o.ok, o.rest⟩
      else if e == 't' then
        let o := scanStrBody fuel (advanceOver p ['\\', e]) r2
        ⟨'\\' :: e :: o.body, '\t' :: o.val, o.errs, o.ok, o.rest⟩
      else if e == 'x' then
        let digs := r2.takeWhile isHexDigit
        let o := scanStrBody fuel (advanceOver p ('\\' :: 'x' :: digs))
          (r2.dropWhile isHexDigit)
        ⟨'\\' :: 'x' :: (digs ++ o.body), Char.ofNat (hexVal digs) :: o.val,
          o.errs, o.ok, o.rest⟩
      else if e == 'u' then
        if hexRunOk 4 r2 then
          let o := scanStrBody fuel (advanceOver p ('\\' :: 'u' :: r2.take 4))
            (r2.drop 4)
          ⟨'\\' :: 'u' :: (r2.take 4 ++ o.body),
            Char.ofNat (hexVal (r2.take 4)) :: o.val, o.errs, o.ok, o.rest⟩
        else
          let o := scanStrBody fuel (advanceOver p ['\\', 'u']) r2
          ⟨'\\' :: 'u' :: o.body, '\\' :: 'u' :: o.val,
            ⟨.InvalidEscape, ⟨p, advanceOver p ['\\', 'u']⟩⟩ :: o.errs,
            o.ok, o.rest⟩
      else if e == 'U' then
        if hexRunOk 8 r2 then
          let o := scanStrBody fuel (advanceOver p ('\\' :: 'U' :: r2.take 8))
            (r2.drop 8)
          ⟨'\\' :: 'U' :: (r2.take 8 ++ o.body),
            Char.ofNat (hexVal (r2.take 8)) :: o.val, o.errs, o.ok, o.rest⟩
        else
          let o := scanStrBody fuel (advanceOver p ['\\', 'U']) r2
          ⟨'\\' :: 'U' :: o.body, '\\' :: 'U' :: o.val,
            ⟨.InvalidEscape, ⟨p, advanceOver p ['\\', 'U']⟩⟩ :: o.errs,
            o.ok, o.rest⟩
      else if isOctDigit e then
        let digs := r2.takeWhile isOctDigit
        let o := scanStrBody fuel (advanceOver p ('\\' :: e :: digs))
          (r2.dropWhile isOctDigit)
        ⟨'\\' :: e :: (digs ++ o.body), Char.ofNat (octVal (e :: digs)) :: o.val,
          o.errs, o.ok, o.rest⟩
      else
        let o := scanStrBody fuel (advanceOver p ['\\', e]) r2
        ⟨'\\' :: e :: o.body, '\\' :: e :: o.val,
          ⟨.InvalidEscape, ⟨p, advanceOver p ['\\', e]⟩⟩ :: o.errs,
          o.ok, o.rest⟩
  | fuel + 1, p, c :: r =>
    let o := scanStrBody fuel (advanceOver p [c]) r
    ⟨c :: o.body, c :: o.val, o.errs, o.ok, o.rest⟩

theorem scanStrBody_append (fuel : Nat) (p : Position) (l : List Char) :
    (scanStrBody fuel p l).body ++ (scanStrBody fuel p l).rest = l := by
  induction fuel, p, l using scanStrBody.induct <;>
    simp_all [scanStrBody, List.takeWhile_append_dropWhile,
      List.take_append_drop]

/-- Result of one driver dispatch step (section 4.5): the tokens emitted
(none for silently skipped whitespace, one otherwise), the sub-errors, the
consumed slice, the unconsumed remainder, the position after the consumed
slice, and whether the next step is still at the start of a logical line. -/
structure StepOut where
  toks : List Token
  errs : List ScanError
  consumed : List Char
  rest : List Char
  posAfter : Position
  lineStart : Bool
deriving Repr

/-- Build the token for a consumed slice: the span runs from the position
at which the slice begins to the position after it, the raw text is the
slice itself (Token ownership rule of section 3). -/
def mkTok (p : Position) (k : TokenKind) (lv : Option (List Char))
    (consumed : List Char) : Token :=
  ⟨k, ⟨p, advanceOver p consumed⟩, consumed, lv⟩

/-- Emit one token for a consumed slice. After any token the driver is no
longer at the start of a logical line. -/
def emit (p : Position) (k : TokenKind) (lv : Option (List Char))
    (es : List ScanError) (consumed rest : List Char) : StepOut :=
  ⟨[mkTok p k lv consumed], es, consumed, rest, advanceOver p consumed, false⟩

/-- Modelled from the spec: directive keyword classification of sections 3
and 4.4 — recognized keywords map to their tags, anything else to `Other`
with the raw keyword preserved. -/
def classifyDirective (kw : List Char) : DirectiveKind :=
  if kw == "include".toList then .Include
  else if kw == "ifdef".toList then .IfDef
  else if kw == "ifndef".toList then .IfNDef
  else if kw == "define".toList then .Define
  else if kw == "if".toList then .If
  else if kw == "endif".toList then .EndIf
  else .Other kw

/-- Modelled from the spec: the directive scanner of section 4.4, invoked
on a hash that is the first non-whitespace character of a logical line
(`cs` is the input after the hash). It skips intervening whitespace, reads
the keyword, and captures the remainder of the line as the operand text
without interpreting it; the operand keeps the quoted or angle-bracketed
form of an include path verbatim. The terminating newline is not part of
the directive token. -/
def scanDirective (p : Position) (cs : List Char) : StepOut :=
  let ws1 := cs.takeWhile isHorizWs
  let r1 := cs.dropWhile isHorizWs
  let kw := r1.takeWhile isIdentCont
  let r2 := r1.dropWhile isIdentCont
  let opRaw := r2.takeWhile (fun c => !(isLineBreak c))
  let rest := r2.dropWhile (fun c => !(isLineBreak c))
  let operand := opRaw.dropWhile isHorizWs
  emit p (.Directive (classifyDirective kw) operand) none []
    ('#' :: (ws1 ++ (kw ++ opRaw))) rest

/-- Modelled from the spec: the line-comment scanner of section 4.3 —
terminates at the next newline (not consumed into the span) or end of
file; `r` is the input after the two slashes. -/
def scanLineComment (p : Position) (r : List Char) : StepOut :=
  let body := r.takeWhile (fun c => !(isLineBreak c))
  let rest := r.dropWhile (fun c => !(isLineBreak c))
  emit p .LineComment (some body) [] ('/' :: '/' :: body) rest

/-- Modelled from the spec: the block-comment scanner of section 4.3 —
terminates at the first star-slash, does not nest; when unterminated it
yields `UnterminatedComment` anchored at the opening slash-star and
consumes the remainder of the file. `r` is the input after the opening
slash-star. -/
def scanBlockComment (p : Position) (r : List Char) : StepOut :=
  match splitOnPattern ['*', '/'] r with
  | some (body, after) =>
    emit p .BlockComment (some body) []
      ('/' :: '*' :: (body ++ ['*', '/'])) after
  | none =>
    emit p (.Error .UnterminatedComment) none [] ('/' :: '*' :: r) []

/-- Modelled from the spec: the raw/delimited string scanner of section
4.2 — reads an arbitrary delimiter up to the opening parenthesis, then
searches for the exact reverse sequence close-paren delimiter quote;
backslashes and quotes in the body are copied verbatim, and input with no
matching terminator yields `UnterminatedRawDelimiter` anchored at the
opening. `r` is the input after the R-quote opener. -/
def scanRaw (p : Position) (r : List Char) : StepOut :=
  let delim := r.takeWhile isRawDelimChar
  match r.dropWhile isRawDelimChar with
  | '(' :: r3 =>
    match splitOnPattern (')' :: (delim ++ ['"'])) r3 with
    | some (body, after) =>
      emit p (.StringLiteral .Narrow true (some delim)) (some body) []
        ('R' :: '"' :: (delim ++ '(' :: (body ++ ')' :: (delim ++ ['"'])))) after
    | none =>
      emit p (.Error .UnterminatedRawDelimiter) none [] ('R' :: '"' :: r) []
  | _ =>
    emit p (.Error .UnterminatedRawDelimiter) none [] ('R' :: '"' :: r) []

/-- Modelled from the spec: a quoted string with an already-recognized
prefix (sections 4.2 on plain and prefixed strings). `pre` is the consumed
opener (encoding prefix plus opening quote), `r` the input after it. An
unterminated body — no closing quote before end of file — produces an
`UnterminatedString` error token that consumes the rest of the file. -/
def scanQuoted (p : Position) (pre : List Char) (enc : Encoding)
    (r : List Char) : StepOut :=
  let o := scanStrBody (r.length + 1) (advanceOver p pre) r
  if o.ok then
    emit p (.StringLiteral enc false none) (some o.val) o.errs
      (pre ++ o.body) o.rest
  else
    emit p (.Error .UnterminatedString) none o.errs (pre ++ o.body) o.rest

/-- Consume a character-literal body up to the closing quote on the same
line, keeping backslash pairs together; `none` when no closing quote
occurs before a line break or end of file. The fuel argument only bounds
the recursion; callers pass at least the input length. -/
def splitCharLit : Nat → List Char → Option (List Char × List Char)
  | 0, _ => none
  | _ + 1, [] => none
  | _ + 1, '\'' :: r => some (['\''], r)
  | fuel + 1, '\\' :: e :: r2 =>
    if isLineBreak e then none
    else
      match splitCharLit fuel r2 with
      | some (a, b) => some ('\\' :: e :: a, b)
      | none => none
  | fuel + 1, c :: r =>
    if isLineBreak c then none
    else
      match splitCharLit fuel r with
      | some (a, b) => some (c :: a, b)
      | none => none

/-- Modelled from the spec: decoding of a character-literal body (section
4.2) — a single character, or one escape sequence; anything else is
malformed. -/
def decodeCharBody : List Char → Option Char
  | [c] => if c == '\\' || c == '\'' then none else some c
  | ['\\', e] =>
    if e == '\\' then some '\\'
    else if e == '\'' then some '\''
    else if e == '"' then some '"'
    else if e == 'n' then some '\n'
    else if e == 't' then some '\t'
    else none
  | '\\' :: 'x' :: digs =>
    if digs ≠ [] && digs.all isHexDigit then some (Char.ofNat (hexVal digs))
    else none
  | _ => none

/-- Modelled from the spec: the character-literal scanner of section 4.2 —
single character or escape-sequence body; more than one logical character
between the quotes is a lexical error (`MalformedCharLiteral`) that does
not abort scanning; a missing closing quote before the end of the line is
reported as unterminated and consumes the rest of the physical line. `r`
is the input after the opening quote. -/
def scanCharLit (p : Position) (r : List Char) : StepOut :=
  match splitCharLit (r.length + 1) r with
  | some (a, b) =>
    match decodeCharBody a.dropLast with
    | some ch => emit p .CharLiteral (some [ch]) [] ('\'' :: a) b
    | none => emit p (.Error .MalformedCharLiteral) none [] ('\'' :: a) b
  | none =>
    let bad := r.takeWhile (fun c => !(isLineBreak c))
    let rest := r.dropWhile (fun c => !(isLineBreak c))
    emit p (.Error .UnterminatedString) none [] ('\'' :: bad) rest

/-- Skip one silently-consumed whitespace character (section 4.5): a
newline returns the driver to the start of a logical line, a space or tab
leaves the line-start state unchanged. -/
def skipWs (p : Position) (ls : Bool) (c : Char) (rest : List Char) : StepOut :=
  ⟨[], [], [c], rest, advanceOver p [c], if isLineBreak c then true else ls⟩

/-- Modelled from the spec: one dispatch step of the tokenizer driver
(section 4.5), in priority order — directive check (only when the hash is
the first non-whitespace character of the logical line), comment-start
check, string and character literal prefix check with bounded lookahead,
identifier/number check, punctuation check, silent whitespace/newline
consumption, and the one-character `UnrecognizedCharacter` fallback. A
hash away from the start of a logical line is ordinary punctuation. -/
def step (p : Position) (ls : Bool) : List Char → StepOut
  | [] => ⟨[], [], [], [], p, ls⟩
  | '#' :: cs =>
    if ls then scanDirective p cs
    else emit p .Punctuation none [] ['#'] cs
  | '/' :: '/' :: r => scanLineComment p r
  | '/' :: '*' :: r => scanBlockComment p r
  | 'R' :: '"' :: r => scanRaw p r
  | 'L' :: '"' :: r => scanQuoted p ['L', '"'] .Wide r
  | 'u' :: '8' :: '"' :: r => scanQuoted p ['u', '8', '"'] .Utf8 r
  | 'u' :: '"' :: r => scanQuoted p ['u', '"'] .Utf16 r
  | 'U' :: '"' :: r => scanQuoted p ['U', '"'] .Utf32 r
  | '"' :: r => scanQuoted p ['"'] .Narrow r
  | '\'' :: r => scanCharLit p r
  | c :: cs =>
    if isWs c then skipWs p ls c cs
    else if isIdentStart c || c.isDigit then
      emit p .Identifier none [] ((c :: cs).takeWhile isIdentCont)
        ((c :: cs).dropWhile isIdentCont)
    else if isPunctChar c then emit p .Punctuation none [] [c] cs
    else emit p (.Error .UnrecognizedCharacter) none [] [c] cs

/-- Modelled from the spec: the tokenizer driver loop of section 4.5 —
repeatedly dispatch at the current position, collecting tokens and
sub-errors, until the buffer is exhausted. The fuel argument only bounds
the recursion; each step consumes at least one character, so fuel greater
than the input length never runs out. -/
def scanLoop : Nat → Position → Bool → List Char → List Token × List ScanError
  | 0, _, _, _ => ([], [])
  | _ + 1, _, _, [] => ([], [])
  | fuel + 1, p, ls, c :: cs =>
    let r := step p ls (c :: cs)
    let t := scanLoop fuel r.posAfter r.lineStart r.rest
    (r.toks ++ t.1, r.errs ++ t.2)

/-- Scan a whole buffer from offset 0, line 1, column 1, at the start of a
logical line. Yields the token sequence and the sub-errors. -/
def scanItems (s : List Char) : List Token × List ScanError :=
  scanLoop (s.length + 1) ⟨0, 1, 1⟩ true s

/-- The token sequence of a scan. -/
def tokens (s : List Char) : List Token :=
  (scanItems s).1

/-- The sub-errors of a scan (errors that do not replace a token, such as
an invalid escape inside a string literal that still completes). -/
def subErrors (s : List Char) : List ScanError :=
  (scanItems s).2

/-- Modelled from the spec: the only top-level failure (section 7) — a
genuinely empty buffer; every non-empty buffer scans to an explicit result
and lexical errors are recoverable, never aborting the scan. -/
inductive ScanFailure where
  | EmptyBuffer
deriving DecidableEq, Repr

/-- Modelled from the spec: the whole-scan entry point of sections 6 and 7
— a top-level failure occurs only for a genuinely empty buffer; otherwise
the full token sequence and sub-error list are produced. -/
def scan (s : List Char) : Except ScanFailure (List Token × List ScanError) :=
  if s.isEmpty then .error .EmptyBuffer else .ok (scanItems s)

/-- Soundness of one dispatch step: the consumed slice plus the remainder
reassembles the input, at least one character is consumed, the position
advances exactly over the consumed slice, and either nothing is emitted
and the consumed slice is silently-skipped whitespace, or exactly one
token is emitted whose raw text is the consumed slice and whose span runs
from the entry position to the position after the slice. -/
def StepOk (p : Position) (input : List Char) (r : StepOut) : Prop :=
  r.consumed ++ r.rest = input ∧ r.consumed ≠ [] ∧
  r.posAfter = advanceOver p r.consumed ∧
  ((r.toks = [] ∧ ∀ c ∈ r.consumed, isWs c = true) ∨
    (∃ t, r.toks = [t] ∧ t.text = r.consumed ∧ t.span.start = p ∧
      t.span.stop = advanceOver p r.consumed))

theorem emit_ok (p : Position) (k : TokenKind) (lv : Option (List Char))
    (es : List ScanError) {consumed rest input : List Char}
    (h : consumed ++ rest = input) (hne : consumed ≠ []) :
    StepOk p input (emit p k lv es consumed rest) :=
  ⟨h, hne, rfl, Or.inr ⟨mkTok p k lv consumed, rfl, rfl, rfl, rfl⟩⟩

theorem scanDirective_ok (p : Position) (cs : List Char) :
    StepOk p ('#' :: cs) (scanDirective p cs) := by
  unfold scanDirective
  refine emit_ok p _ _ _ ?_ (by simp)
  simp [List.append_assoc, List.takeWhile_append_dropWhile]

theorem scanLineComment_ok (p : Position) (r : List Char) :
    StepOk p ('/' :: '/' :: r) (scanLineComment p r) := by
  unfold scanLineComment
  refine emit_ok p _ _ _ ?_ (by simp)
  simp [List.takeWhile_append_dropWhile]

theorem scanBlockComment_ok (p : Position) (r : List Char) :
    StepOk p ('/' :: '*' :: r) (scanBlockComment p r) := by
  unfold scanBlockComment
  cases hsplit : splitOnPattern ['*', '/'] r with
  | none =>
    refine emit_ok p _ _ _ ?_ (by simp)
    simp
  | some ab =>
    obtain ⟨body, after⟩ := ab
    have hdec := splitOnPattern_eq ['*', '/'] r body after hsplit
    refine emit_ok p _ _ _ ?_ (by simp)
    simp only [List.cons_append, List.append_assoc]
    simp only [List.append_assoc] at hdec
    simp [← hdec]

theorem scanRaw_ok (p : Position) (r : List Char) :
    StepOk p ('R' :: '"' :: r) (scanRaw p r) := by
  unfold scanRaw
  simp only []
  split
  · rename_i r3 hdrop
    split
    · rename_i body after hsplit
      have hdec := splitOnPattern_eq _ r3 body after hsplit
      have hdelim := List.takeWhile_append_dropWhile (p := isRawDelimChar) (l := r)
      refine emit_ok p _ _ _ ?_ (by simp)
      conv_rhs => rw [← hdelim, hdrop, ← hdec]
      simp [List.append_assoc]
    · refine emit_ok p _ _ _ ?_ (by simp)
      simp
  · refine emit_ok p _ _ _ ?_ (by simp)
    simp

theorem scanQuoted_ok (p : Position) (pre : List Char) (enc : Encoding)
    (r : List Char) (hne : pre ≠ []) :
    StepOk p (pre ++ r) (scanQuoted p pre enc r) := by
  unfold scanQuoted
  have hb := scanStrBody_append (r.length + 1) (advanceOver p pre) r
  by_cases hok : (scanStrBody (r.length + 1) (advanceOver p pre) r).ok
  · simp only [hok, if_true]
    refine emit_ok p _ _ _ ?_ (by simp [hne])
    rw [List.append_assoc, hb]
  · simp only [hok, if_false, Bool.false_eq_true]
    refine emit_ok p _ _ _ ?_ (by simp [hne])
    rw [List.append_assoc, hb]

theorem splitCharLit_append (fuel : Nat) (l : List Char) :
    ∀ a b, splitCharLit fuel l = some (a, b) → a ++ b = l := by
  induction fuel, l using splitCharLit.induct with
  | case1 _ => intro a b h; simp [splitCharLit] at h
  | case2 _ => intro a b h; simp [splitCharLit] at h
  | case3 n r =>
    intro a b h
    simp [splitCharLit] at h
    obtain ⟨ha, hb⟩ := h
    subst ha; subst hb; rfl
  | case4 fuel e r2 hlb =>
    intro a b h
    simp [splitCharLit, hlb] at h
  | case5 fuel e r2 hlb a' b' hrec ih =>
    intro a b h
    have hlb' : isLineBreak e = false := by simpa using hlb
    simp [splitCharLit, hlb', hrec] at h
    obtain ⟨ha, hb⟩ := h
    subst ha; subst hb
    simp [ih a' b' hrec]
  | case6 fuel e r2 hlb hrec ih =>
    intro a b h
    have hlb' : isLineBreak e = false := by simpa using hlb
    simp [splitCharLit, hlb', hrec] at h
  | case7 fuel c r hq hbs hlb =>
    intro a b h
    simp [splitCharLit, hlb] at h
  | case8 fuel c r hq hbs hlb a' b' hrec ih =>
    intro a b h
    have hlb' : isLineBreak c = false := by simpa using hlb
    simp [splitCharLit, hlb', hrec] at h
    obtain ⟨ha, hb⟩ := h
    subst ha; subst hb
    simp [ih a' b' hrec]
  | case9 fuel c r hq hbs hlb hrec ih =>
    intro a b h
    have hlb' : isLineBreak c = false := by simpa using hlb
    simp [splitCharLit, hlb', hrec] at h

theorem scanCharLit_ok (p : Position) (r : List Char) :
    StepOk p ('\'' :: r) (scanCharLit p r) := by
  unfold scanCharLit
  cases hsplit : splitCharLit (r.length + 1) r with
  | none =>
    refine emit_ok p _ _ _ ?_ ?_
    · simp [List.takeWhile_append_dropWhile]
    · simp
  | some ab =>
    obtain ⟨a, b⟩ := ab
    have hdec := splitCharLit_append (r.length + 1) r a b hsplit
    simp only []
    cases hdecode : decodeCharBody a.dropLast <;>
      · refine emit_ok p _ _ _ ?_ ?_
        · simp [hdec]
        · simp

theorem skipWs_ok (p : Position) (ls : Bool) (c : Char) (rest : List Char)
    (h : isWs c = true) : StepOk p (c :: rest) (skipWs p ls c rest) := by
  unfold skipWs
  refine ⟨rfl, by simp, rfl, Or.inl ⟨rfl, ?_⟩⟩
  intro x hx
  simp only [List.mem_singleton] at hx
  subst hx
  exact h

theorem identCont_of_head (c : Char) (h : (isIdentStart c || c.isDigit) = true) :
    isIdentCont c = true := by
  simp only [isIdentStart, isIdentCont, Bool.or_eq_true] at *
  tauto

/-- Soundness of the driver dispatch: on any non-empty input, one step of
the tokenizer satisfies the step invariant. -/
theorem step_ok (p : Position) (ls : Bool) (c : Char) (cs : List Char) :
    StepOk p (c :: cs) (step p ls (c :: cs)) := by
  unfold step
  split
  · rename_i hemp; exact absurd hemp (by simp)
  · rename_i heq
    injection heq with h1 h2
    subst h1; subst h2
    split
    · exact scanDirective_ok p _
    · exact emit_ok p _ _ _ rfl (by simp)
  · rename_i heq
    injection heq with h1 h2
    subst h1; subst h2
    exact scanLineComment_ok p _
  · rename_i heq
    injection heq with h1 h2
    subst h1; subst h2
    exact scanBlockComment_ok p _
  · rename_i heq
    injection heq with h1 h2
    subst h1; subst h2
    exact scanRaw_ok p _
  · rename_i heq
    injection heq with h1 h2
    subst h1; subst h2
    exact scanQuoted_ok p ['L', '"'] .Wide _ (by simp)
  · rename_i heq
    injection heq with h1 h2
    subst h1; subst h2
    exact scanQuoted_ok p ['u', '8', '"'] .Utf8 _ (by simp)
  · rename_i heq
    injection heq with h1 h2
    subst h1; subst h2
    exact scanQuoted_ok p ['u', '"'] .Utf16 _ (by simp)
  · rename_i heq
    injection heq with h1 h2
    subst h1; subst h2
    exact scanQuoted_ok p ['U', '"'] .Utf32 _ (by simp)
  · rename_i heq
    injection heq with h1 h2
    subst h1; subst h2
    exact scanQuoted_ok p ['"'] .Narrow _ (by simp)
  · rename_i heq
    injection heq with h1 h2
    subst h1; subst h2
    exact scanCharLit_ok p _
  · rename_i heq
    injection heq with h1 h2
    subst h1; subst h2
    split
    · rename_i hws
      exact skipWs_ok p ls _ _ hws
    · split
      · rename_i hid
        refine emit_ok p _ _ _ ?_ ?_
        · exact List.takeWhile_append_dropWhile ..
        · rw [List.takeWhile_cons_of_pos (identCont_of_head _ hid)]
          simp
      · split
        · exact emit_ok p _ _ _ rfl (by simp)
        · exact emit_ok p _ _ _ rfl (by simp)

/-- The tiling invariant of a scan: starting at character offset `base`,
the buffer decomposes into alternating runs of silently-skipped whitespace
and token texts, every token's span start offset pointing at its first
character and its exclusive span end offset just past its last. -/
inductive Covers : Nat → List Char → List Token → Prop where
  | nil (base : Nat) (ws : List Char) (hws : ∀ c ∈ ws, isWs c = true) :
      Covers base ws []
  | cons (base : Nat) (ws : List Char) (t : Token) (buf : List Char)
      (ts : List Token)
      (hws : ∀ c ∈ ws, isWs c = true)
      (hstart : t.span.start.offset = base + ws.length)
      (hstop : t.span.stop.offset = base + ws.length + t.text.length)
      (htail : Covers (base + ws.length + t.text.length) buf ts) :
      Covers base (ws ++ (t.text ++ buf)) (t :: ts)

theorem Covers.prepend_ws {b : Nat} {ws buf : List Char} {ts : List Token}
    (hws : ∀ c ∈ ws, isWs c = true)
    (h : Covers (b + ws.length) buf ts) : Covers b (ws ++ buf) ts := by
  generalize hB : b + ws.length = B at h
  cases h
  case nil =>
    rename_i hws2
    refine Covers.nil b _ ?_
    intro c hc
    rcases List.mem_append.mp hc with hc | hc
    · exact hws c hc
    · exact hws2 c hc
  case cons =>
    rename_i ws2 t buf2 ts2 hws2 hstart hstop htail
    subst hB
    have hall : ∀ c ∈ ws ++ ws2, isWs c = true := by
      intro c hc
      rcases List.mem_append.mp hc with hc | hc
      · exact hws c hc
      · exact hws2 c hc
    have hmain := Covers.cons b (ws ++ ws2) t buf2 ts2 hall
      (by simp [hstart]; omega) (by simp [hstop]; omega)
      (by
        have hlen : b + (ws ++ ws2).length + t.text.length =
            b + ws.length + ws2.length + t.text.length := by simp; omega
        rw [hlen]; exact htail)
    simpa [List.append_assoc] using hmain

/-- The driver loop satisfies the covering invariant whenever the fuel
exceeds the input length (as it does at the entry point). -/
theorem scanLoop_covers (fuel : Nat) :
    ∀ (p : Position) (ls : Bool) (input : List Char),
      input.length < fuel →
      Covers p.offset input (scanLoop fuel p ls input).1 := by
  induction fuel with
  | zero => intro p ls input h; omega
  | succ n ih =>
    intro p ls input hlen
    cases input with
    | nil => exact Covers.nil _ [] (by simp)
    | cons c cs =>
      obtain ⟨happ, hne, hpos, hform⟩ := step_ok p ls c cs
      simp only [scanLoop]
      set st := step p ls (c :: cs) with hstdef
      have hlen' : cs.length + 1 < n + 1 := by simpa using hlen
      have hsum : st.consumed.length + st.rest.length = cs.length + 1 := by
        have := congrArg List.length happ
        simpa using this
      have hcons : 1 ≤ st.consumed.length := by
        cases hcl : st.consumed with
        | nil => exact absurd hcl hne
        | cons _ _ => simp
      have hrest : st.rest.length < n := by omega
      have hrec := ih st.posAfter st.lineStart st.rest hrest
      have hposoff : st.posAfter.offset = p.offset + st.consumed.length := by
        rw [hpos, advanceOver_offset]
      rcases hform with ⟨htoks, hwsall⟩ | ⟨t, htoks, htext, hst, hsp⟩
      · rw [htoks]
        simp only [List.nil_append]
        rw [← happ]
        exact Covers.prepend_ws hwsall (by rw [← hposoff]; exact hrec)
      · rw [htoks]
        simp only [List.cons_append, List.nil_append]
        rw [← happ]
        have hcov : Covers (p.offset + 0 + t.text.length) st.rest
            ((scanLoop n st.posAfter st.lineStart st.rest).1) := by
          have heq : p.offset + 0 + t.text.length = st.posAfter.offset := by
            rw [hposoff, htext]; omega
          rw [heq]; exact hrec
        have hmain := Covers.cons p.offset [] t st.rest _
          (by simp)
          (by simp [hst])
          (by
            rw [hsp, advanceOver_offset, htext]
            simp)
          hcov
        simpa [htext] using hmain

/-- The token sequence of a whole-buffer scan tiles the buffer from
offset 0. -/
theorem tokens_covers (s : List Char) : Covers 0 s (tokens s) := by
  have h := scanLoop_covers (s.length + 1) ⟨0, 1, 1⟩ true s (by omega)
  exact h

theorem covers_start_le_stop {b : Nat} {buf : List Char} {ts : List Token}
    (h : Covers b buf ts) :
    ∀ t ∈ ts, t.span.start.offset ≤ t.span.stop.offset := by
  induction h with
  | nil => simp
  | cons base ws t buf' ts' hws hstart hstop htail ih =>
    intro t' ht'
    rcases List.mem_cons.mp ht' with ht' | ht'
    · subst ht'
      rw [hstart, hstop]
      omega
    · exact ih t' ht'

theorem covers_stop_ge {b : Nat} {buf : List Char} {ts : List Token}
    (h : Covers b buf ts) :
    ∀ t ∈ ts, b ≤ t.span.stop.offset := by
  induction h with
  | nil => simp
  | cons base ws t buf' ts' hws hstart hstop htail ih =>
    intro t' ht'
    rcases List.mem_cons.mp ht' with ht' | ht'
    · subst ht'
      rw [hstop]
      omega
    · have := ih t' ht'
      omega

theorem covers_head_start {b : Nat} {buf : List Char} {t : Token}
    {ts : List Token} (h : Covers b buf (t :: ts)) :
    b ≤ t.span.start.offset ∧
      ∀ j, b ≤ j → j < t.span.start.offset →
        ∃ c, buf[j - b]? = some c ∧ isWs c = true := by
  generalize hT : t :: ts = T at h
  cases h
  case nil => exact absurd hT (by simp)
  case cons =>
    rename_i ws t2 buf2 ts2 hws hstart hstop htail
    injection hT with h1 h2
    subst h1; subst h2
    constructor
    · rw [hstart]; omega
    · intro j hbj hjs
      rw [hstart] at hjs
      have hlt : j - b < ws.length := by omega
      have hget : (ws ++ (t.text ++ buf2))[j - b]? = ws[j - b]? :=
        List.getElem?_append_left hlt
      rw [hget, List.getElem?_eq_getElem hlt]
      exact ⟨ws[j - b], rfl, hws _ (List.getElem_mem hlt)⟩

theorem covers_consec {b : Nat} {buf : List Char} {ts : List Token}
    (h : Covers b buf ts) :
    ∀ i, (hi : i + 1 < ts.length) →
      ts[i].span.stop.offset ≤ ts[i + 1].span.start.offset := by
  induction h with
  | nil => intro i hi; simp at hi
  | cons base ws t buf' ts' hws hstart hstop htail ih =>
    intro i hi
    cases i with
    | zero =>
      simp only [List.length_cons] at hi
      cases ts' with
      | nil => simp at hi
      | cons t' ts'' =>
        have hh := (covers_head_start htail).1
        simpa [hstop] using hh
    | succ i' =>
      simp only [List.length_cons] at hi
      have := ih i' (by omega)
      simpa using this

theorem covers_gap {b : Nat} {buf : List Char} {ts : List Token}
    (h : Covers b buf ts) :
    ∀ i j, (hi : i + 1 < ts.length) →
      ts[i].span.stop.offset ≤ j → j < ts[i + 1].span.start.offset →
      ∃ c, buf[j - b]? = some c ∧ isWs c = true := by
  induction h with
  | nil => intro i j hi; simp at hi
  | cons base ws t buf' ts' hws hstart hstop htail ih =>
    intro i j hi h1 h2
    cases i with
    | zero =>
      simp only [List.length_cons] at hi
      cases ts' with
      | nil => simp at hi
      | cons t' ts'' =>
        simp only [List.getElem_cons_zero, List.getElem_cons_succ] at h1 h2
        rw [hstop] at h1
        have hgap := (covers_head_start htail).2 j (by omega) h2
        obtain ⟨c, hc, hcws⟩ := hgap
        refine ⟨c, ?_, hcws⟩
        have e1 : (ws ++ (t.text ++ buf'))[j - base]? =
            (t.text ++ buf')[j - base - ws.length]? := by
          apply List.getElem?_append_right
          omega
        have e2 : (t.text ++ buf')[j - base - ws.length]? =
            buf'[j - base - ws.length - t.text.length]? := by
          apply List.getElem?_append_right
          omega
        rw [e1, e2]
        have e3 : j - base - ws.length - t.text.length =
            j - (base + ws.length + t.text.length) := by omega
        rw [e3]
        exact hc
    | succ i' =>
      simp only [List.length_cons] at hi
      simp only [List.getElem_cons_succ] at h1 h2
      have hstopge : base + ws.length + t.text.length ≤
          ts'[i'].span.stop.offset := by
        apply covers_stop_ge htail
        exact List.getElem_mem (by omega)
      have hgap := ih i' j (by omega) h1 h2
      obtain ⟨c, hc, hcws⟩ := hgap
      refine ⟨c, ?_, hcws⟩
      have e1 : (ws ++ (t.text ++ buf'))[j - base]? =
          (t.text ++ buf')[j - base - ws.length]? := by
        apply List.getElem?_append_right
        omega
      have e2 : (t.text ++ buf')[j - base - ws.length]? =
          buf'[j - base - ws.length - t.text.length]? := by
        apply List.getElem?_append_right
        omega
      rw [e1, e2]
      have e3 : j - base - ws.length - t.text.length =
          j - (base + ws.length + t.text.length) := by omega
      rw [e3]
      exact hc

/-- Interleave gap slices with token texts: the reconstruction of a buffer
from a scan's token texts and the whitespace runs between them. -/
def joinInter : List (List Char) → List (List Char) → List Char
  | [], _ => []
  | g :: _, [] => g
  | g :: gs, t :: ts => g ++ (t ++ joinInter gs ts)

theorem covers_joinInter {b : Nat} {buf : List Char} {ts : List Token}
    (h : Covers b buf ts) :
    ∃ gaps : List (List Char), gaps.length = ts.length + 1 ∧
      (∀ g ∈ gaps, ∀ c ∈ g, isWs c = true) ∧
      buf = joinInter gaps (ts.map Token.text) := by
  induction h with
  | nil base ws hws =>
    exact ⟨[ws], by simp, by simpa using hws, by simp [joinInter]⟩
  | cons base ws t buf' ts' hws hstart hstop htail ih =>
    obtain ⟨gaps', hlen, hgws, hbuf⟩ := ih
    refine ⟨ws :: gaps', by simp [hlen], ?_, ?_⟩
    · intro g hg
      rcases List.mem_cons.mp hg with hg | hg
      · subst hg; exact hws
      · exact hgws g hg
    · cases gaps' with
      | nil => simp at hlen
      | cons g0 gs =>
        simp [joinInter, hbuf]

theorem scanLoop_nil (fuel : Nat) (p : Position) (ls : Bool) :
    scanLoop fuel p ls [] = ([], []) := by
  cases fuel <;> simp [scanLoop]

/-- The golden fixture string_literals.cpp of the lexer test data,
reproduced character for character (braces written as hex escapes). -/
def fixture : List Char :=
  ("#include <iostream>\n" ++
  "#include <string>\n" ++
  "\n" ++
  "namespace \x7b\n" ++
  "\n" ++
  "const std::string STR\x7b\"#include <fmt/core.h>\"\x7d;\n" ++
  "const std::wstring WSTR\x7bL\"Hello, world! 😎😎😎\"\x7d; // This comment starts at line 7, column 48\n" ++
  "\n" ++
  "const std::string RAW_STR\x7bR\"delim(\n" ++
  "This is a raw string.\n" ++
  ")delim\"\x7d;\n" ++
  "\n" ++
  "\x7d // namespace").toList

/-- Line 6 of the fixture: the include-looking text lives inside a string
literal. -/
def strLine : List Char :=
  "const std::string STR\x7b\"#include <fmt/core.h>\"\x7d;".toList

/-- The include-guard shape of the platform test fixture, reduced to the
five-directive nest named by the specification: an outer guard with one
platform conditional inside. -/
def guardIn : List Char :=
  "#ifndef NAME\n#define NAME\n#if __APPLE__\n#endif\n#endif\n".toList

/-- Raw string with delimiter x around a body holding a quote. -/
def rawIn1 : List Char := "R\"x(a\"b)x\"".toList

/-- Raw string with empty delimiter around the same body. -/
def rawIn2 : List Char := "R\"(a\"b)\"".toList

/-- Raw string whose body holds a backslash followed by n. -/
def rawIn3 : List Char := "R\"(a\\nb)\"".toList

/-- Wide string of three astral characters followed by a semicolon. -/
def wideIn : List Char := "L\"😎😎😎\";".toList

/-- A narrow string whose body is the invalid escape backslash-q. -/
def escIn : List Char := "\"\\q\"".toList

/-- C1 (counterexample): the claim that concatenating every token's raw
text in order reproduces the original buffer exactly fails on the buffer
consisting of a space and the letter a — the driver of section 4.5
consumes the space silently, so no token carries it and the concatenation
is just the identifier text. -/
theorem claim_C1_counterexample :
    ((tokens [' ', 'a']).map Token.text).foldr
      (fun a b => a ++ b) [] ≠ [' ', 'a'] := by decide

/-- C1 (amended): concatenating every token's raw text in order reproduces
the original buffer exactly once the whitespace/newline runs that the
driver skipped silently between tokens are restored in their gap
positions: every buffer decomposes as alternating whitespace-only gaps and
token texts, in emission order. -/
theorem claim_C1 (s : List Char) :
    ∃ gaps : List (List Char), gaps.length = (tokens s).length + 1 ∧
      (∀ g ∈ gaps, ∀ c ∈ g, isWs c = true) ∧
      s = joinInter gaps ((tokens s).map Token.text) :=
  covers_joinInter (tokens_covers s)

theorem claim_C1_witness :
    ∃ gaps : List (List Char), gaps.length = (tokens ['a']).length + 1 ∧
      (∀ g ∈ gaps, ∀ c ∈ g, isWs c = true) ∧
      ['a'] = joinInter gaps ((tokens ['a']).map Token.text) :=
  claim_C1 ['a']

/-- C2: for every token of a scan the span's start offset is at most its
exclusive end offset; consecutive tokens never overlap (the next token's
start offset is at least the previous token's end offset, the position
increments accounting for every consumed character); and every buffer
character lying strictly between one token's end offset and the next
token's start offset is silently-skipped whitespace — no character is
unaccounted for. -/
theorem claim_C2 (s : List Char) :
    (∀ t ∈ tokens s, t.span.start.offset ≤ t.span.stop.offset) ∧
    (∀ i, (hi : i + 1 < (tokens s).length) →
      (tokens s)[i].span.stop.offset ≤ (tokens s)[i + 1].span.start.offset) ∧
    (∀ i j, (hi : i + 1 < (tokens s).length) →
      (tokens s)[i].span.stop.offset ≤ j →
      j < (tokens s)[i + 1].span.start.offset →
      ∃ c, s[j]? = some c ∧ isWs c = true) := by
  have h := tokens_covers s
  refine ⟨covers_start_le_stop h, covers_consec h, ?_⟩
  intro i j hi h1 h2
  have hg := covers_gap h i j hi h1 h2
  simpa using hg

theorem claim_C2_witness :
    ∃ c, ("a b".toList)[1]? = some c ∧ isWs c = true :=
  (claim_C2 "a b".toList).2.2 0 1 (by decide) (by decide) (by decide)

/-- C3: the raw strings R-quote-x-paren a-quote-b close-x-quote and the
delimiter-free R-quote-paren a-quote-b close-quote scan to string-literal
tokens with the same decoded body (a, quote, b), differing only in the
recorded delimiter; a backslash inside a raw body is copied verbatim and
never treated as an escape (no sub-error is raised for it). -/
theorem claim_C3 :
    ((tokens rawIn1).map (fun t => (t.kind, t.literalValue)) =
      [(.StringLiteral .Narrow true (some ['x']), some ['a', '"', 'b'])]) ∧
    ((tokens rawIn2).map (fun t => (t.kind, t.literalValue)) =
      [(.StringLiteral .Narrow true (some []), some ['a', '"', 'b'])]) ∧
    subErrors rawIn1 = [] ∧ subErrors rawIn2 = [] ∧
    ((tokens rawIn3).map (fun t => (t.kind, t.literalValue)) =
      [(.StringLiteral .Narrow true (some []), some ['a', '\\', 'n', 'b'])]) ∧
    subErrors rawIn3 = [] := by decide

/-- C4: the wide string of three astral characters scans to a
StringLiteral token of encoding Wide whose decoded value counts three
logical characters; the semicolon following it starts at column 7, which
is the opening quote's column 2 advanced by the three characters plus the
two quotes — one column per logical character, not per storage unit. -/
theorem claim_C4 :
    ((tokens wideIn).map Token.kind =
      [.StringLiteral .Wide false none, .Punctuation]) ∧
    ((tokens wideIn).map Token.literalValue =
      [some ['😎', '😎', '😎'], none]) ∧
    ((tokens wideIn).map (fun t => t.literalValue.map List.length) =
      [some 3, none]) ∧
    ((tokens wideIn).map (fun t => t.span.start.column) = [1, 2 + (3 + 2)]) ∧
    subErrors wideIn = [] := by decide

set_option maxRecDepth 10000 in
/-- C5: the column of the cursor after consuming a run of characters with
no line break in it is the starting column plus the run's length — one
column per character, multi-byte characters counted once; in particular in
the fixture file the line comment that follows 47 characters of code on
line 7 (code that holds the three-emoji wide string) reports start
line 7, column 48. -/
theorem claim_C5 :
    (∀ (o ln n : Nat) (l : List Char), (∀ c ∈ l, isLineBreak c = false) →
      (advanceOver ⟨o, ln, n⟩ l).column = n + l.length) ∧
    ∃ t ∈ tokens fixture, t.kind = .LineComment ∧
      t.span.start.line = 7 ∧ t.span.start.column = 48 := by
  constructor
  · intro o ln n l h
    exact advanceOver_column ⟨o, ln, n⟩ l h
  · decide

theorem claim_C5_witness :
    (advanceOver ⟨0, 1, 1⟩ ['a', 'b']).column = 1 + 2 :=
  (claim_C5).1 0 1 1 ['a', 'b'] (by decide)

/-- C6: the include-guard nest — ifndef NAME, define NAME, a platform
guard if __APPLE__ with its endif, and the closing endif — scans as five
flat Directive tokens in source order (their start lines are 1 through 5),
each with the operand text of its line, and the guarded conditional
content is tokenized like any other line rather than evaluated. -/
theorem claim_C6 :
    ((tokens guardIn).map Token.kind =
      [.Directive .IfNDef "NAME".toList,
       .Directive .Define "NAME".toList,
       .Directive .If "__APPLE__".toList,
       .Directive .EndIf [],
       .Directive .EndIf []]) ∧
    ((tokens guardIn).map (fun t => t.span.start.line) = [1, 2, 3, 4, 5]) := by
  decide

/-- C7: a hash that is not the first non-whitespace character of a logical
line is never a directive (one dispatch step emits an ordinary punctuation
token for it); consequently the fixture line that embeds the text
hash-include inside a string literal scans with no Directive token at all,
the text surviving intact as the decoded value of the one string-literal
token. -/
theorem claim_C7 :
    (∀ (p : Position) (cs : List Char),
      ((step p false ('#' :: cs)).toks.map Token.kind) = [.Punctuation]) ∧
    ((tokens strLine).filter
      (fun t => match t.kind with | .Directive _ _ => true | _ => false) = []) ∧
    (((tokens strLine).filter
      (fun t => match t.kind with | .StringLiteral _ _ _ => true | _ => false)).map
        Token.literalValue = [some "#include <fmt/core.h>".toList]) := by
  refine ⟨?_, by decide, by decide⟩
  intro p cs
  rfl

/-- C8: the string whose body is the invalid escape backslash-q yields
exactly one InvalidEscape sub-error while the enclosing literal still
completes as a valid StringLiteral token keeping the two characters as
literal text; and the scan as a whole fails before producing tokens only
for a genuinely empty buffer. -/
theorem claim_C8 :
    ((subErrors escIn).map ScanError.kind = [.InvalidEscape]) ∧
    ((tokens escIn).map (fun t => (t.kind, t.literalValue)) =
      [(.StringLiteral .Narrow false none, some ['\\', 'q'])]) ∧
    (∀ s : List Char, (∃ e, scan s = .error e) ↔ s = []) := by
  refine ⟨by decide, by decide, ?_⟩
  intro s
  constructor
  · rintro ⟨e, he⟩
    cases s with
    | nil => rfl
    | cons c cs => simp [scan] at he
  · rintro rfl
    exact ⟨.EmptyBuffer, rfl⟩

theorem claim_C8_witness : ∃ e, scan [] = .error e :=
  (claim_C8.2.2 []).mpr rfl

/-- C9: whenever the driver reaches a block-comment opener slash-star and
no closing star-slash occurs anywhere in the remaining input, the whole
scan from that point is a single UnterminatedComment error token whose
span is anchored at the opening position, whose text consumes the
remainder of the file, and after which nothing further is emitted. -/
theorem claim_C9 (fuel : Nat) (p : Position) (ls : Bool) (rest : List Char)
    (hfuel : rest.length + 2 < fuel)
    (hnc : ∀ a b : List Char, rest ≠ a ++ '*' :: '/' :: b) :
    scanLoop fuel p ls ('/' :: '*' :: rest) =
      ([⟨.Error .UnterminatedComment,
        ⟨p, advanceOver p ('/' :: '*' :: rest)⟩,
        '/' :: '*' :: rest, none⟩], []) := by
  cases fuel with
  | zero => omega
  | succ n =>
    simp only [scanLoop]
    have hstep : step p ls ('/' :: '*' :: rest) = scanBlockComment p rest := rfl
    rw [hstep]
    have hnone : splitOnPattern ['*', '/'] rest = none := by
      cases hsp : splitOnPattern ['*', '/'] rest with
      | none => rfl
      | some ab =>
        obtain ⟨a, b⟩ := ab
        have hdec := splitOnPattern_eq _ rest a b hsp
        exact absurd (by simpa [List.append_assoc] using hdec.symm) (hnc a b)
    unfold scanBlockComment
    rw [hnone]
    simp [emit, mkTok, scanLoop_nil]

theorem claim_C9_witness :
    scanLoop 10 ⟨0, 1, 1⟩ true ('/' :: '*' :: ['a']) =
      ([⟨.Error .UnterminatedComment,
        ⟨⟨0, 1, 1⟩, advanceOver ⟨0, 1, 1⟩ ('/' :: '*' :: ['a'])⟩,
        '/' :: '*' :: ['a'], none⟩], []) :=
  claim_C9 10 ⟨0, 1, 1⟩ true ['a'] (by decide)
    (by
      intro a b h
      have hlen := congrArg List.length h
      simp [List.length_append] at hlen
      omega)

/-- C10: a directive line consisting of a bare keyword — endif with
nothing after it — scans as one Directive token whose operand text is
empty, both at end of file and when a newline follows; capturing an empty
remainder yields an empty operand, not an error token. -/
theorem claim_C10 :
    (tokens "#endif".toList =
      [⟨.Directive .EndIf [], ⟨⟨0, 1, 1⟩, ⟨6, 1, 7⟩⟩,
        "#endif".toList, none⟩]) ∧
    (tokens "#endif\n".toList =
      [⟨.Directive .EndIf [], ⟨⟨0, 1, 1⟩, ⟨6, 1, 7⟩⟩,
        "#endif".toList, none⟩]) := by decide

end CcLexer
